import Mathlib

/-!
Verification of the Wordle repository's core behaviour: the guess evaluator,
the keyboard-status merge, the attempt-cap state transition, the session
state machine, the statistics fallback, the key-press buffer handling and
the win-percentage display.

The frontend code (GameBoard / GameStats components and the api service) is
embedded directly from the TypeScript source.  The backend game engine
(evaluator and session store behind the HTTP api) is not part of the
repository's source tree, so those two pieces are modelled from the
specification, as marked on their definitions.
-/

/-- Per-letter verdict for one guess position. -/
inductive Verdict where
  | correct
  | present
  | absent
deriving DecidableEq, Repr

/-- Game status of a session: `playing`, `won` or `lost`. -/
inductive Status where
  | playing
  | won
  | lost
deriving DecidableEq, Repr

/-! ## Evaluator (modelled from the spec, §4.1) -/

/-- Decrement the remaining-count pool at letter `c`. -/
def decr (p : Char → Nat) (c : Char) : Char → Nat :=
  fun d => if d = c then p d - 1 else p d

/-- Modelled from the spec: pass 1 of the evaluator (the backend evaluation
engine is not under `src/`).  For each exact position match, decrement the
target's per-letter frequency pool. -/
def pass1 : List (Char × Char) → (Char → Nat) → (Char → Nat)
  | [], p => p
  | (g, t) :: rest, p => pass1 rest (if g = t then decr p t else p)

/-- Modelled from the spec: pass 2 of the evaluator.  Exact matches are
`correct`; otherwise, left to right, a guess letter with remaining pool
count is `present` (consuming one count) and `absent` otherwise. -/
def pass2 : List (Char × Char) → (Char → Nat) → List Verdict
  | [], _ => []
  | (g, t) :: rest, p =>
    if g = t then Verdict.correct :: pass2 rest p
    else if 0 < p g then Verdict.present :: pass2 rest (decr p g)
    else Verdict.absent :: pass2 rest p

/-- Modelled from the spec: the two-pass evaluator, §4.1.  The pool is
initialised from the target's letter frequencies. -/
def evaluate (guess target : List Char) : List Verdict :=
  pass2 (guess.zip target) (pass1 (guess.zip target) (fun c => target.count c))

/-- Number of target occurrences of `c` that are not exact matches: the pool
remaining after pass 1. -/
def nonCorrectTargetCount (pairs : List (Char × Char)) (c : Char) : Nat :=
  pairs.countP (fun q => q.2 == c && !(q.1 == q.2))

/-- Number of non-exact guess occurrences of `c` among the first `k`
positions. -/
def nonCorrectGuessUpTo (pairs : List (Char × Char)) (c : Char) (k : Nat) : Nat :=
  (pairs.take k).countP (fun q => q.1 == c && !(q.1 == q.2))

/-- Declarative verdict for position `i`, stated as in the claim: `correct`
iff guess and target agree there; among the remaining positions, left to
right, `present` iff the letter still has remaining count in the target's
frequency pool after the `correct` matches and the earlier `present`
matches are deducted. -/
def verdictAt (pairs : List (Char × Char)) (i : Nat) : Verdict :=
  match pairs.get? i with
  | none => Verdict.absent
  | some (g, t) =>
    if g = t then Verdict.correct
    else if nonCorrectGuessUpTo pairs g (i + 1) ≤ nonCorrectTargetCount pairs g then
      Verdict.present
    else Verdict.absent

/-- Generalisation of `verdictAt` to an arbitrary remaining-count pool `p`,
used as the induction invariant for `pass2`. -/
def specAt (pairs : List (Char × Char)) (p : Char → Nat) (i : Nat) : Verdict :=
  match pairs.get? i with
  | none => Verdict.absent
  | some (g, t) =>
    if g = t then Verdict.correct
    else if nonCorrectGuessUpTo pairs g (i + 1) ≤ p g then Verdict.present
    else Verdict.absent

/-! ## Keyboard status merge (from `loadGameState` in the GameBoard
component and `handleSubmit` in GameStats.tsx) -/

/-- Keyboard status map: letter → best verdict seen, `none` when the letter
has no entry (the JS object has no such key). -/
abbrev KB := Char → Option Verdict

/-- The empty keyboard-status object. -/
def kbEmpty : KB := fun _ => none

/-- One step of the merge, embedded from the source conditional:
`!kb[letter] || (kb[letter]==="absent" && status!=="absent") ||
(kb[letter]==="present" && status==="correct")`. -/
def mergeKey (kb : KB) (letter : Char) (status : Verdict) : KB :=
  if kb letter = none
      ∨ (kb letter = some Verdict.absent ∧ status ≠ Verdict.absent)
      ∨ (kb letter = some Verdict.present ∧ status = Verdict.correct) then
    fun c => if c = letter then some status else kb c
  else kb

/-- Merge one attempt: the guess word zipped with its evaluation, folded
left to right as the source's `forEach` does. -/
def mergeWord (kb : KB) (pairs : List (Char × Verdict)) : KB :=
  pairs.foldl (fun k q => mergeKey k q.1 q.2) kb

/-- Merge a whole attempt list (word, evaluation) as `loadGameState` does. -/
def mergeAll (kb : KB) (atts : List (List Char × List Verdict)) : KB :=
  atts.foldl (fun k a => mergeWord k (a.1.zip a.2)) kb

/-- Rank of a verdict: `correct = 2 > present = 1 > absent = 0`. -/
def rank : Verdict → Nat
  | Verdict.absent => 0
  | Verdict.present => 1
  | Verdict.correct => 2

/-- Rank of a keyboard entry; a missing entry ranks strictly below any
verdict. -/
def rankO : Option Verdict → Nat
  | none => 0
  | some v => rank v + 1

/-- Max of two verdicts by rank. -/
def vmax (v w : Verdict) : Verdict := if rank v ≤ rank w then w else v

/-- Fold step taking the maximum-rank verdict. -/
def oMerge (o : Option Verdict) (v : Verdict) : Option Verdict :=
  match o with
  | none => some v
  | some w => some (vmax w v)

/-- All verdicts the letter `c` received across the attempt list, in order. -/
def occurrencesOf (c : Char) (atts : List (List Char × List Verdict)) :
    List Verdict :=
  (((atts.map (fun a => a.1.zip a.2)).join.filter (fun q => q.1 == c)).map
    (fun q => q.2))

/-- The maximum-rank verdict of a list (`none` for the empty list). -/
def bestVerdict (l : List Verdict) : Option Verdict := l.foldl oMerge none

/-- Verdicts of letter `c` inside one attempt's zipped pairs. -/
def occInWord (c : Char) (pairs : List (Char × Verdict)) : List Verdict :=
  (pairs.filter (fun q => q.1 == c)).map (fun q => q.2)

/-! ## Attempt cap and win transition (from `handleSubmit` in
GameStats.tsx, guarded by `handleKeyPress`'s status check) -/

/-- The board-level state `handleSubmit` transitions: the 0-based current
attempt row and the game status. -/
structure BoardState where
  currentAttempt : Nat
  status : Status
deriving DecidableEq, Repr

/-- One guess submission, embedded from `handleSubmit`: on a correct result
the status becomes `won`; otherwise, when the current row is the last
(`currentAttempt === maxAttempts - 1`), the status becomes `lost`; otherwise
the row advances.  The leading status guard is `handleKeyPress`'s
`if (gameStatus !== "playing") return`. -/
def handleSubmitStep (maxAttempts : Nat) (st : BoardState) (correct : Bool) :
    BoardState :=
  if st.status ≠ Status.playing then st
  else if correct then { st with status := Status.won }
  else if st.currentAttempt = maxAttempts - 1 then { st with status := Status.lost }
  else { st with currentAttempt := st.currentAttempt + 1 }

/-- Fold a sequence of submission results over the initial board state. -/
def runGame (maxAttempts : Nat) (flags : List Bool) : BoardState :=
  flags.foldl (handleSubmitStep maxAttempts) ⟨0, Status.playing⟩

/-! ## Session state machine (modelled from the spec, §4.2) -/

/-- Modelled from the spec: one game session (§3); the backend session
store behind the HTTP api is not under `src/`. -/
structure Session where
  target : List Char
  maxAttempts : Nat
  attempts : List (List Char)
  evaluations : List (List Verdict)
  status : Status
deriving DecidableEq, Repr

/-- Modelled from the spec: the error kinds of `submitGuess` (§7). -/
inductive GameError where
  | sessionTerminal
  | lengthMismatch
  | attemptLimitReached
deriving DecidableEq, Repr

/-- A guess is fully correct iff every verdict is `correct`. -/
def allCorrect (vs : List Verdict) : Bool :=
  vs.all (fun v => v == Verdict.correct)

/-- Result of a successful guess submission: the new attempt's ordinal, its
verdict sequence, the updated status, and — only when no longer playing —
the revealed target word. -/
structure GuessResult where
  attemptNumber : Nat
  evaluation : List Verdict
  status : Status
  word : Option (List Char)
deriving DecidableEq, Repr

/-- Modelled from the spec: `submitGuess` (§4.2).  A terminal session fails
with `sessionTerminal`; a wrong-length guess with `lengthMismatch`; a full
attempt log with `attemptLimitReached`; otherwise the guess is evaluated,
appended, and the status transitions to `won` on an all-correct verdict
sequence, to `lost` when the cap is reached, and stays `playing` otherwise.
The target word is revealed only on a terminal status. -/
def submitGuess (s : Session) (guess : List Char) :
    Except GameError (Session × GuessResult) :=
  if s.status ≠ Status.playing then Except.error GameError.sessionTerminal
  else if guess.length ≠ s.target.length then Except.error GameError.lengthMismatch
  else if s.maxAttempts ≤ s.attempts.length then
    Except.error GameError.attemptLimitReached
  else
    let ev := evaluate guess s.target
    let newStatus :=
      if allCorrect ev then Status.won
      else if s.attempts.length + 1 = s.maxAttempts then Status.lost
      else Status.playing
    let s' : Session :=
      { s with
        attempts := s.attempts ++ [guess]
        evaluations := s.evaluations ++ [ev]
        status := newStatus }
    Except.ok (s', ⟨s.attempts.length + 1, ev, newStatus,
      if newStatus = Status.playing then none else some s.target⟩)

/-- The read-only projection of a session. -/
structure GameView where
  attempts : List (List Char)
  evaluations : List (List Verdict)
  status : Status
  word : Option (List Char)
deriving DecidableEq, Repr

/-- Modelled from the spec: `currentView` (§4.2); the `word` field — the
solution shown to the client — is `none` while the session is playing. -/
def currentView (s : Session) : GameView :=
  ⟨s.attempts, s.evaluations, s.status,
    if s.status = Status.playing then none else some s.target⟩

/-! ## Statistics lookup (from `getStats` in the api service with the
Firestore fallback, src/unnamed/part_001) -/

/-- The aggregate statistics record. -/
structure GameStatsData where
  played : Nat
  won : Nat
  current_streak : Nat
  max_streak : Nat
  guess_distribution : List (String × Nat)
deriving DecidableEq, Repr

/-- The api-level stats response: a success flag, the stats payload and an
optional error message. -/
structure StatsResponse where
  success : Bool
  stats : GameStatsData
  error : Option String
deriving DecidableEq, Repr

/-- The hard-coded fallback stats object returned by `getStats`'s outer
`catch`: all zeroes with a zeroed distribution for guesses 1–6. -/
def defaultStats : GameStatsData :=
  ⟨0, 0, 0, 0, [("1", 0), ("2", 0), ("3", 0), ("4", 0), ("5", 0), ("6", 0)]⟩

/-- `getStats` from the api service, embedded over the outcomes of its two
backing stores: the Firestore document read (`ok none` when the snapshot
does not exist) and the HTTP api fetch.  A Firestore hit returns
`{success: true, stats}`; otherwise the api result is returned as-is; if
the api fetch also fails, the outer `catch` returns `{success: true,
stats: defaults}` with no error field. -/
def getStats (firestoreDoc : Except String (Option GameStatsData))
    (apiResult : Except String StatsResponse) : StatsResponse :=
  match firestoreDoc with
  | Except.ok (some st) => ⟨true, st, none⟩
  | _ =>
    match apiResult with
    | Except.ok data => data
    | Except.error _ => ⟨true, defaultStats, none⟩

/-! ## Statistics refresh trigger (from `submitGuess` in the GameBoard
component, src/unnamed/part_000) -/

/-- The fields of the guess response the post-submission code inspects. -/
structure GuessResponseData where
  error : Option String
  game_status : Status
deriving DecidableEq, Repr

/-- Whether the submission path calls `fetchStats`, embedded from the
source: an error response returns early; otherwise stats are fetched
exactly when `data.game_status` is `"won"` or `"lost"`. -/
def statsRefreshTriggered (d : GuessResponseData) : Bool :=
  if d.error.isSome then false
  else if d.game_status = Status.won then true
  else if d.game_status = Status.lost then true
  else false

/-! ## Win percentage (from the GameStats component and the stats modal in
the GameBoard component) -/

/-- The displayed win percentage, embedded from the source:
`stats.played > 0 ? Math.round((stats.won / stats.played) * 100) : 0`. -/
def winPercentage (played won : Nat) : Int :=
  if 0 < played then round (((won : ℚ) / (played : ℚ)) * 100) else 0

/-- The claim's reading: `round(100 * won / played)` when `played > 0`,
and `0` when `played = 0`. -/
def winPercentageSpec (played won : Nat) : Int :=
  if played = 0 then 0 else round ((100 * (won : ℚ)) / (played : ℚ))

/-! ## Key handling (from `handleKeyPress` in the GameBoard component,
src/unnamed/part_000 lines 218-242) -/

/-- A buffer cell holding a single uppercase letter. -/
def isLetterCell (s : String) : Bool :=
  match s.data with
  | [c] => c.isUpper
  | _ => false

/-- `currentAttempt.findIndex((letter) => letter === "")`, with `none` for
JavaScript's `-1`. -/
def findEmptyIdx : List String → Option Nat
  | [] => none
  | s :: rest => if s == "" then some 0 else (findEmptyIdx rest).map (· + 1)

/-- Embedded from the source `handleKeyPress`: `Enter` leaves the buffer to
the (asynchronous) submit path, `Backspace` clears the cell before the
first empty one (or the last cell when none is empty), skipping when the
computed index is negative, and a single alphabetic key fills the first
empty cell with its uppercase form.  Everything else changes nothing. -/
def handleKeyPress (wordLength : Nat) (buf : List String) (key : String) :
    List String :=
  if key = "Enter" then buf
  else if key = "Backspace" then
    let idx : Int :=
      match findEmptyIdx buf with
      | none => -1
      | some i => (i : Int)
    let deleteIndex : Int := if idx = -1 then (wordLength : Int) - 1 else idx - 1
    if 0 ≤ deleteIndex then buf.set deleteIndex.toNat "" else buf
  else
    match key.data with
    | [c] =>
      if c.isAlpha then
        match findEmptyIdx buf with
        | none => buf
        | some i => buf.set i (String.mk [c.toUpper])
      else buf
    | _ => buf

/-- The canonical well-formed buffer: a filled front padded with empty
cells up to the word length. -/
def padBuffer (wordLength : Nat) (front : List String) : List String :=
  front ++ List.replicate (wordLength - front.length) ""

/-- A contiguous block of letter cells followed only by empty cells. -/
def bufCells : List String → Bool
  | [] => true
  | s :: rest =>
    if s == "" then rest.all (fun t => t == "") else isLetterCell s && bufCells rest

/-- The claim's invariant: length exactly the word length, and a prefix of
single uppercase letters followed only by empty cells. -/
def isBuffer (wordLength : Nat) (buf : List String) : Bool :=
  (buf.length == wordLength) && bufCells buf

theorem pass2_length (pairs : List (Char × Char)) (p : Char → Nat) :
    (pass2 pairs p).length = pairs.length := by
  induction pairs generalizing p with
  | nil => rfl
  | cons q rest ih =>
    obtain ⟨g, t⟩ := q
    by_cases h : g = t
    · simp [pass2, h, ih]
    · by_cases h2 : 0 < p g <;> simp [pass2, h, h2, ih]

theorem countP_take_succ_of_get {α : Type} (l : List α) (p : α → Bool) (i : Nat)
    (x : α) (hx : l.get? i = some x) (hpx : p x = true) :
    0 < (l.take (i + 1)).countP p := by
  rw [List.countP_pos_iff]
  refine ⟨x, ?_, hpx⟩
  have hi : i < l.length := (List.get?_eq_some.mp hx).1
  have : (l.take (i + 1)).get? i = some x := by
    rwa [List.get?_take (Nat.lt_succ_self i)]
  exact List.get?_mem this

theorem nonCorrectGuessUpTo_cons (g t : Char) (rest : List (Char × Char))
    (c : Char) (k : Nat) :
    nonCorrectGuessUpTo ((g, t) :: rest) c (k + 1) =
      nonCorrectGuessUpTo rest c k + (if g == c && !(g == t) then 1 else 0) := by
  simp [nonCorrectGuessUpTo, List.take_succ_cons, List.countP_cons]

theorem nonCorrectGuessUpTo_zero (pairs : List (Char × Char)) (c : Char) :
    nonCorrectGuessUpTo pairs c 0 = 0 := by
  simp [nonCorrectGuessUpTo]

theorem pass2_get? (pairs : List (Char × Char)) (p : Char → Nat) (i : Nat)
    (hi : i < pairs.length) :
    (pass2 pairs p).get? i = some (specAt pairs p i) := by
  induction pairs generalizing p i with
  | nil => simp at hi
  | cons q rest ih =>
    obtain ⟨g, t⟩ := q
    cases i with
    | zero =>
      simp only [specAt, List.get?_cons_zero]
      by_cases hgt : g = t
      · simp [pass2, hgt]
      · have hz : nonCorrectGuessUpTo ((g, t) :: rest) g 1 = 1 := by
          rw [nonCorrectGuessUpTo_cons, nonCorrectGuessUpTo_zero]
          simp [hgt]
        by_cases hp : 0 < p g
        · have h1 : 1 ≤ p g := hp
          simp [pass2, hgt, hp, hz, h1]
        · have h1 : ¬ (1 ≤ p g) := hp
          simp [pass2, hgt, hp, hz, h1]
    | succ j =>
      have hj : j < rest.length := by simpa using hi
      rcases hq : rest.get? j with _ | ⟨g', t'⟩
      · exact absurd (List.get?_eq_none.mp hq) (by omega)
      by_cases hgt : g = t
      · have e1 : (pass2 ((g, t) :: rest) p).get? (j + 1) = (pass2 rest p).get? j := by
          simp [pass2, hgt]
        rw [e1, ih p j hj]
        simp only [specAt, List.get?_cons_succ, hq]
        by_cases hgpt : g' = t'
        · simp [hgpt]
        · rw [nonCorrectGuessUpTo_cons]
          have hhead : (g == g' && !(g == t)) = false := by simp [hgt]
          simp [hgpt, hhead]
      · by_cases hp : 0 < p g
        · have e1 : (pass2 ((g, t) :: rest) p).get? (j + 1)
              = (pass2 rest (decr p g)).get? j := by
            simp [pass2, hgt, hp]
          rw [e1, ih (decr p g) j hj]
          simp only [specAt, List.get?_cons_succ, hq]
          by_cases hgpt : g' = t'
          · simp [hgpt]
          · rw [nonCorrectGuessUpTo_cons]
            by_cases hgg' : g = g'
            · subst hgg'
              have hd : decr p g g = p g - 1 := by simp [decr]
              have hiff : (nonCorrectGuessUpTo rest g (j + 1) ≤ decr p g g)
                  ↔ (nonCorrectGuessUpTo rest g (j + 1) + 1 ≤ p g) := by
                rw [hd]; omega
              simp [hgpt, hgt, hiff]
            · have hhead : (g == g' && !(g == t)) = false := by simp [hgg']
              have hd : decr p g g' = p g' := by simp [decr, Ne.symm hgg']
              simp [hgpt, hhead, hd]
        · have hp0 : p g = 0 := by omega
          have e1 : (pass2 ((g, t) :: rest) p).get? (j + 1)
              = (pass2 rest p).get? j := by
            simp [pass2, hgt, hp]
          rw [e1, ih p j hj]
          simp only [specAt, List.get?_cons_succ, hq]
          by_cases hgpt : g' = t'
          · simp [hgpt]
          · rw [nonCorrectGuessUpTo_cons]
            by_cases hgg' : g = g'
            · subst hgg'
              have hpos : 0 < nonCorrectGuessUpTo rest g (j + 1) :=
                countP_take_succ_of_get rest _ j (g, t') hq (by simp [hgpt])
              have hc1 : ¬ (nonCorrectGuessUpTo rest g (j + 1) ≤ p g) := by omega
              have hc2 : ¬ (nonCorrectGuessUpTo rest g (j + 1) + 1 ≤ p g) := by omega
              simp [hgpt, hgt, hc1, hc2]
            · have hhead : (g == g' && !(g == t)) = false := by simp [hgg']
              simp [hgpt, hhead]

theorem pass1_apply (pairs : List (Char × Char)) (p : Char → Nat) (c : Char) :
    pass1 pairs p c = p c - pairs.countP (fun q => q.1 == q.2 && q.2 == c) := by
  induction pairs generalizing p with
  | nil => simp [pass1]
  | cons q rest ih =>
    obtain ⟨g, t⟩ := q
    have e : pass1 ((g, t) :: rest) p = pass1 rest (if g = t then decr p t else p) := by
      simp [pass1]
    rw [e, List.countP_cons]
    by_cases hgt : g = t
    · subst hgt
      rw [if_pos rfl, ih]
      by_cases hct : c = g
      · subst hct
        simp only [decr, if_pos rfl, beq_self_eq_true, Bool.and_self, if_true]
        omega
      · have hgc : (g == c) = false := by
          simp [beq_eq_false_iff_ne, Ne.symm hct]
        simp [decr, hct, hgc]
    · have hb : (g == t) = false := by simp [beq_eq_false_iff_ne, hgt]
      rw [if_neg hgt, ih]
      simp [hb]

theorem countP_split {α : Type} (l : List α) (A B : α → Bool) :
    l.countP A = l.countP (fun a => A a && B a) + l.countP (fun a => A a && !(B a)) := by
  induction l with
  | nil => simp
  | cons x l ih =>
    rw [List.countP_cons, List.countP_cons, List.countP_cons, ih]
    by_cases hA : A x = true <;> by_cases hB : B x = true <;>
      simp [hA, hB] <;> omega

theorem count_zip (guess target : List Char) (h : guess.length = target.length)
    (c : Char) :
    target.count c = (guess.zip target).countP (fun q => q.2 == c) := by
  induction guess generalizing target with
  | nil =>
    cases target with
    | nil => simp
    | cons t ts => simp at h
  | cons g gs ih =>
    cases target with
    | nil => simp at h
    | cons t ts =>
      have h' : gs.length = ts.length := by simpa using h
      rw [List.zip_cons_cons, List.countP_cons, List.count_cons, ih ts h']

theorem pass1_pool (guess target : List Char) (h : guess.length = target.length)
    (c : Char) :
    pass1 (guess.zip target) (fun d => target.count d) c
      = nonCorrectTargetCount (guess.zip target) c := by
  rw [pass1_apply]
  show target.count c - _ = _
  rw [count_zip guess target h c,
    countP_split (guess.zip target) (fun q => q.2 == c) (fun q => q.1 == q.2)]
  have hcomm : (guess.zip target).countP (fun q => q.1 == q.2 && q.2 == c)
      = (guess.zip target).countP (fun q => q.2 == c && q.1 == q.2) := by
    apply List.countP_congr
    intro q _
    rw [Bool.and_comm]
  rw [hcomm, nonCorrectTargetCount]
  omega

theorem specAt_congr (pairs : List (Char × Char)) (p p2 : Char → Nat)
    (hp : ∀ c, p c = p2 c) (i : Nat) :
    specAt pairs p i = specAt pairs p2 i := by
  rcases hq : pairs.get? i with _ | ⟨g, t⟩ <;> simp [specAt, hq, hp]

/-- C1: for every guess and target of equal length, the two-pass evaluator
produces the verdict sequence in which a position is `correct` iff guess and
target agree there, and a remaining position, scanning left to right, is
`present` iff its letter still has remaining count in the target's frequency
pool after the `correct` matches and the earlier `present` matches are
deducted, and `absent` otherwise (so with duplicated letters the leftmost
guess positions are credited first). -/
theorem evaluate_two_pass_spec (guess target : List Char)
    (h : guess.length = target.length) :
    (evaluate guess target).length = guess.length ∧
    ∀ i, i < guess.length →
      (evaluate guess target).get? i = some (verdictAt (guess.zip target) i) := by
  have hlen : (guess.zip target).length = guess.length := by
    simp [List.length_zip, h]
  constructor
  · rw [evaluate, pass2_length, hlen]
  · intro i hi
    have hi' : i < (guess.zip target).length := by omega
    rw [evaluate, pass2_get? _ _ _ hi']
    congr 1
    rw [specAt_congr _ _ (fun c => nonCorrectTargetCount (guess.zip target) c)
      (fun c => pass1_pool guess target h c) i]
    rfl

/-- C1 witness: spec §8 examples.  Target `"ABCDE"`, guess `"EEEEE"`: only
the final `E` is `correct`, the four earlier `E`s are `absent`; target
`"SPEED"`, guess `"ERASE"`: the first `E` is `present`. -/
theorem evaluate_two_pass_spec_witness :
    (evaluate ("EEEEE".data) ("ABCDE".data)).get? 0 = some Verdict.absent ∧
    (evaluate ("EEEEE".data) ("ABCDE".data)).get? 4 = some Verdict.correct ∧
    (evaluate ("ERASE".data) ("SPEED".data)).get? 0 = some Verdict.present := by
  refine ⟨?_, ?_, ?_⟩
  · have h := (evaluate_two_pass_spec ("EEEEE".data) ("ABCDE".data)
      (by decide)).2 0 (by decide)
    rw [h]; decide
  · have h := (evaluate_two_pass_spec ("EEEEE".data) ("ABCDE".data)
      (by decide)).2 4 (by decide)
    rw [h]; decide
  · have h := (evaluate_two_pass_spec ("ERASE".data) ("SPEED".data)
      (by decide)).2 0 (by decide)
    rw [h]; decide

theorem mergeKey_eq_oMerge (kb : KB) (letter : Char) (status : Verdict) :
    mergeKey kb letter status
      = fun c => if c = letter then oMerge (kb letter) status else kb c := by
  funext c
  by_cases hc : c = letter
  · subst hc
    rcases hk : kb c with _ | w
    · simp [mergeKey, hk, oMerge]
    · cases w <;> cases status <;>
        simp [mergeKey, hk, oMerge, vmax, rank]
  · rcases hk : kb letter with _ | w
    · simp [mergeKey, hk, hc]
    · cases w <;> cases status <;> simp [mergeKey, hk, hc]

theorem mergeWord_apply (kb : KB) (pairs : List (Char × Verdict)) (c : Char) :
    mergeWord kb pairs c = (occInWord c pairs).foldl oMerge (kb c) := by
  induction pairs generalizing kb with
  | nil => rfl
  | cons q rest ih =>
    obtain ⟨a, v⟩ := q
    rw [show mergeWord kb ((a, v) :: rest) = mergeWord (mergeKey kb a v) rest from rfl,
      ih]
    by_cases hca : c = a
    · subst hca
      have h1 : mergeKey kb c v c = oMerge (kb c) v := by
        rw [mergeKey_eq_oMerge]; simp
      rw [h1]
      have h2 : occInWord c ((c, v) :: rest) = v :: occInWord c rest := by
        simp [occInWord]
      rw [h2, List.foldl_cons]
    · have h1 : mergeKey kb a v c = kb c := by
        rw [mergeKey_eq_oMerge]; simp [hca]
      rw [h1]
      have h2 : occInWord c ((a, v) :: rest) = occInWord c rest := by
        have : (a == c) = false := by simp [beq_eq_false_iff_ne, Ne.symm hca]
        simp [occInWord, this]
      rw [h2]

theorem mergeAll_apply (kb : KB) (atts : List (List Char × List Verdict))
    (c : Char) :
    mergeAll kb atts c = (occurrencesOf c atts).foldl oMerge (kb c) := by
  induction atts generalizing kb with
  | nil => rfl
  | cons a rest ih =>
    rw [show mergeAll kb (a :: rest) = mergeAll (mergeWord kb (a.1.zip a.2)) rest
      from rfl, ih]
    have h2 : occurrencesOf c (a :: rest)
        = occInWord c (a.1.zip a.2) ++ occurrencesOf c rest := by
      simp [occurrencesOf, occInWord]
    rw [h2, List.foldl_append, mergeWord_apply]

theorem rankO_oMerge_left (o : Option Verdict) (v : Verdict) :
    rankO o ≤ rankO (oMerge o v) := by
  rcases o with _ | w
  · simp [oMerge, rankO]
  · simp only [oMerge, rankO, vmax]
    by_cases h : rank w ≤ rank v <;> simp [h] <;> omega

theorem rankO_oMerge_right (o : Option Verdict) (v : Verdict) :
    rankO (some v) ≤ rankO (oMerge o v) := by
  rcases o with _ | w
  · simp [oMerge]
  · simp only [oMerge, rankO, vmax]
    by_cases h : rank w ≤ rank v <;> simp [h] <;> omega

theorem rankO_foldl_mono (l : List Verdict) (o : Option Verdict) :
    rankO o ≤ rankO (l.foldl oMerge o) := by
  induction l generalizing o with
  | nil => exact Nat.le_refl _
  | cons v rest ih =>
    calc rankO o ≤ rankO (oMerge o v) := rankO_oMerge_left o v
      _ ≤ rankO (rest.foldl oMerge (oMerge o v)) := ih (oMerge o v)

theorem rankO_foldl_mem (l : List Verdict) (o : Option Verdict) (v : Verdict)
    (hv : v ∈ l) :
    rankO (some v) ≤ rankO (l.foldl oMerge o) := by
  induction l generalizing o with
  | nil => simp at hv
  | cons w rest ih =>
    rcases List.mem_cons.mp hv with h | h
    · subst h
      calc rankO (some v) ≤ rankO (oMerge o v) := rankO_oMerge_right o v
        _ ≤ rankO (rest.foldl oMerge (oMerge o v)) := rankO_foldl_mono _ _
    · exact ih (oMerge o w) h

theorem oMerge_of_le (o : Option Verdict) (v : Verdict)
    (h : rankO (some v) ≤ rankO o) : oMerge o v = o := by
  rcases o with _ | w
  · simp [rankO] at h
  · simp only [rankO] at h
    simp only [oMerge, vmax]
    by_cases hle : rank w ≤ rank v
    · have hr : rank w = rank v := by omega
      have hwv : w = v := by
        cases w <;> cases v <;> simp_all [rank]
      simp [hwv]
    · rw [if_neg hle]

theorem foldl_oMerge_fixed (l : List Verdict) (o : Option Verdict)
    (h : ∀ v ∈ l, rankO (some v) ≤ rankO o) : l.foldl oMerge o = o := by
  induction l with
  | nil => rfl
  | cons v rest ih =>
    rw [List.foldl_cons, oMerge_of_le o v (h v (List.mem_cons_self v rest))]
    exact ih (fun w hw => h w (List.mem_cons_of_mem v hw))

theorem foldl_oMerge_mem (l : List Verdict) (o : Option Verdict) (v : Verdict)
    (hfold : l.foldl oMerge o = some v) : o = some v ∨ v ∈ l := by
  induction l generalizing o with
  | nil => exact Or.inl hfold
  | cons w rest ih =>
    rw [List.foldl_cons] at hfold
    rcases ih (oMerge o w) hfold with h | h
    · rcases ho : o with _ | u
      · rw [ho] at h
        simp only [oMerge] at h
        have hw : w = v := Option.some_injective _ h
        subst hw
        exact Or.inr (List.mem_cons_self _ _)
      · rw [ho] at h
        simp only [oMerge, vmax] at h
        by_cases hle : rank u ≤ rank w
        · rw [if_pos hle] at h
          have hw : w = v := Option.some_injective _ h
          subst hw
          exact Or.inr (List.mem_cons_self _ _)
        · rw [if_neg hle] at h
          left
          exact h
    · exact Or.inr (List.mem_cons_of_mem w h)

/-- C2: after any sequence of recorded attempts, the keyboard-status entry
for a letter equals the maximum-rank verdict (`correct = 2 > present = 1 >
absent = 0`) the letter ever received across all attempts (and is a verdict
it actually received), and merging never downgrades an entry. -/
theorem keyboard_status_best (atts : List (List Char × List Verdict)) (c : Char) :
    mergeAll kbEmpty atts c = bestVerdict (occurrencesOf c atts) ∧
    (∀ v, mergeAll kbEmpty atts c = some v → v ∈ occurrencesOf c atts) ∧
    (∀ v ∈ occurrencesOf c atts,
      rankO (some v) ≤ rankO (mergeAll kbEmpty atts c)) ∧
    (∀ kb : KB, rankO (kb c) ≤ rankO (mergeAll kb atts c)) := by
  refine ⟨?_, ?_, ?_, ?_⟩
  · rw [mergeAll_apply]
    rfl
  · intro v hv
    rw [mergeAll_apply] at hv
    rcases foldl_oMerge_mem _ _ _ hv with h | h
    · simp [kbEmpty] at h
    · exact h
  · intro v hv
    rw [mergeAll_apply]
    exact rankO_foldl_mem _ _ v hv
  · intro kb
    rw [mergeAll_apply]
    exact rankO_foldl_mono _ _

/-- C2 witness: the letter `A` is `absent` in the first attempt and
`present` in the second; the merged status is `present` and the `absent`
entry was never downgraded. -/
theorem keyboard_status_best_witness :
    mergeAll kbEmpty [(['A'], [Verdict.absent]), (['A'], [Verdict.present])] 'A'
      = some Verdict.present ∧
    rankO (some Verdict.absent)
      ≤ rankO (mergeAll kbEmpty
          [(['A'], [Verdict.absent]), (['A'], [Verdict.present])] 'A') := by
  constructor
  · exact (keyboard_status_best
      [(['A'], [Verdict.absent]), (['A'], [Verdict.present])] 'A').1.trans
      (by decide)
  · exact (keyboard_status_best
      [(['A'], [Verdict.absent]), (['A'], [Verdict.present])] 'A').2.2.1
      Verdict.absent (by decide)

/-- C9: the keyboard-status merge is idempotent — folding the same attempt
list into a mapping that already reflects those attempts yields the
identical mapping, so reloading the game state leaves the keyboard status
unchanged. -/
theorem keyboard_merge_idempotent (kb : KB)
    (atts : List (List Char × List Verdict)) :
    mergeAll (mergeAll kb atts) atts = mergeAll kb atts := by
  funext c
  rw [mergeAll_apply (mergeAll kb atts) atts c]
  apply foldl_oMerge_fixed
  intro v hv
  rw [mergeAll_apply]
  exact rankO_foldl_mem _ _ v hv

theorem handleSubmitStep_terminal (maxAttempts : Nat) (st : BoardState)
    (b : Bool) (h : st.status ≠ Status.playing) :
    handleSubmitStep maxAttempts st b = st := by
  simp [handleSubmitStep, h]

theorem foldl_step_terminal (maxAttempts : Nat) (flags : List Bool)
    (st : BoardState) (h : st.status ≠ Status.playing) :
    flags.foldl (handleSubmitStep maxAttempts) st = st := by
  induction flags with
  | nil => rfl
  | cons b rest ih =>
    rw [List.foldl_cons, handleSubmitStep_terminal maxAttempts st b h]
    exact ih

theorem foldl_step_false (maxAttempts : Nat) (hM : 0 < maxAttempts)
    (flags : List Bool) (hall : ∀ f ∈ flags, f = false) (k : Nat)
    (hk : k < maxAttempts) :
    flags.foldl (handleSubmitStep maxAttempts) ⟨k, Status.playing⟩
      = if maxAttempts ≤ k + flags.length then
          ⟨maxAttempts - 1, Status.lost⟩
        else ⟨k + flags.length, Status.playing⟩ := by
  induction flags generalizing k with
  | nil =>
    have hnk : ¬ (maxAttempts ≤ k) := by omega
    simp [hnk]
  | cons b rest ih =>
    have hb : b = false := hall b (List.mem_cons_self b rest)
    subst hb
    have hrest : ∀ f ∈ rest, f = false :=
      fun f hf => hall f (List.mem_cons_of_mem _ hf)
    rw [List.foldl_cons]
    by_cases hlast : k = maxAttempts - 1
    · have e1 : handleSubmitStep maxAttempts ⟨k, Status.playing⟩ false
          = ⟨k, Status.lost⟩ := by
        simp [handleSubmitStep, hlast]
      rw [e1, foldl_step_terminal maxAttempts rest _ (by simp)]
      have : maxAttempts ≤ k + (rest.length + 1) := by omega
      simp only [List.length_cons, this, if_true]
      have : k = maxAttempts - 1 := hlast
      simp [this]
    · have e1 : handleSubmitStep maxAttempts ⟨k, Status.playing⟩ false
          = ⟨k + 1, Status.playing⟩ := by
        simp [handleSubmitStep, hlast]
      have hk1 : k + 1 < maxAttempts := by omega
      rw [e1, ih hrest (k + 1) hk1]
      have harith : (maxAttempts ≤ k + 1 + rest.length)
          ↔ (maxAttempts ≤ k + (rest.length + 1)) := by omega
      by_cases hc : maxAttempts ≤ k + 1 + rest.length
      · have hc' : maxAttempts ≤ k + (rest.length + 1) := by omega
        simp [hc, hc']
      · have hc' : ¬ (maxAttempts ≤ k + (rest.length + 1)) := by omega
        have : k + 1 + rest.length = k + (rest.length + 1) := by omega
        simp [hc, hc', this]

/-- C3: with a positive attempt cap `M`, a run whose submissions are never
fully correct is `playing` while fewer than `M` attempts were recorded and
`lost` as soon as the `M`-th is recorded (and stays `lost`); a fully
correct submission from a `playing` state yields `won` regardless of the
attempt count. -/
theorem attempt_cap_spec (maxAttempts : Nat) (flags : List Bool)
    (hM : 0 < maxAttempts) (hall : ∀ f ∈ flags, f = false) :
    ((runGame maxAttempts flags).status
      = if maxAttempts ≤ flags.length then Status.lost else Status.playing) ∧
    (∀ st : BoardState, st.status = Status.playing →
      (handleSubmitStep maxAttempts st true).status = Status.won) := by
  constructor
  · rw [runGame, foldl_step_false maxAttempts hM flags hall 0 hM]
    by_cases hc : maxAttempts ≤ flags.length
    · have hc' : maxAttempts ≤ 0 + flags.length := by omega
      simp [hc, hc']
    · have hc' : ¬ (maxAttempts ≤ 0 + flags.length) := by omega
      simp [hc, hc']
  · intro st hst
    simp [handleSubmitStep, hst]

/-- C3 witness: with `M = 6`, after five all-incorrect submissions the game
is still `playing`, after the sixth it is `lost`; a correct submission from
the initial state wins. -/
theorem attempt_cap_spec_witness :
    (runGame 6 (List.replicate 5 false)).status = Status.playing ∧
    (runGame 6 (List.replicate 6 false)).status = Status.lost ∧
    (handleSubmitStep 6 ⟨0, Status.playing⟩ true).status = Status.won := by
  refine ⟨?_, ?_, ?_⟩
  · exact (attempt_cap_spec 6 (List.replicate 5 false) (by decide)
      (by decide)).1.trans (by decide)
  · exact (attempt_cap_spec 6 (List.replicate 6 false) (by decide)
      (by decide)).1.trans (by decide)
  · exact (attempt_cap_spec 6 [] (by decide) (by decide)).2
      ⟨0, Status.playing⟩ rfl

/-- C4: a `submitGuess` against a session whose status is `won` or `lost`
fails with `sessionTerminal`; no `ok` result exists, so no attempt is
appended and the session value (attempts, evaluations, status) is untouched. -/
theorem submitGuess_terminal (s : Session) (guess : List Char)
    (h : s.status = Status.won ∨ s.status = Status.lost) :
    submitGuess s guess = Except.error GameError.sessionTerminal ∧
    ∀ s' r, submitGuess s guess ≠ Except.ok (s', r) := by
  have hne : s.status ≠ Status.playing := by
    rcases h with h | h <;> rw [h] <;> simp
  constructor
  · simp [submitGuess, hne]
  · intro s' r
    simp [submitGuess, hne]

/-- C4 witness: a concrete won session rejects a further guess. -/
theorem submitGuess_terminal_witness :
    submitGuess
      ⟨"CRANE".data, 6, ["CRANE".data],
        [[Verdict.correct, Verdict.correct, Verdict.correct, Verdict.correct,
          Verdict.correct]], Status.won⟩
      "SLATE".data = Except.error GameError.sessionTerminal :=
  (submitGuess_terminal _ _ (Or.inl rfl)).1

theorem submitGuess_ok_word (s : Session) (guess : List Char) (s' : Session)
    (r : GuessResult) (hok : submitGuess s guess = Except.ok (s', r)) :
    r.word = if r.status = Status.playing then none else some s.target := by
  simp only [submitGuess] at hok
  split at hok
  · simp at hok
  split at hok
  · simp at hok
  split at hok
  · simp at hok
  · have h := Except.ok.inj hok
    have hr := congrArg Prod.snd h
    simp only at hr
    rw [← hr]

/-- C5: while a session is playing, the view's solution field is `none` and
a successful `submitGuess` whose resulting status is still `playing` also
carries no word; the target is included exactly once the status is `won` or
`lost`. -/
theorem target_hidden_while_playing (s : Session) :
    (s.status = Status.playing → (currentView s).word = none) ∧
    (s.status ≠ Status.playing → (currentView s).word = some s.target) ∧
    (∀ guess s' r, submitGuess s guess = Except.ok (s', r) →
      (r.status = Status.playing → r.word = none) ∧
      (r.status ≠ Status.playing → r.word = some s.target)) := by
  refine ⟨?_, ?_, ?_⟩
  · intro h
    simp [currentView, h]
  · intro h
    simp [currentView, h]
  · intro guess s' r hok
    have hw := submitGuess_ok_word s guess s' r hok
    constructor
    · intro h
      rw [hw, if_pos h]
    · intro h
      rw [hw, if_neg h]

/-- C5 witness: a fresh playing session exposes no solution, and a winning
guess's result reveals the target. -/
theorem target_hidden_while_playing_witness :
    (currentView ⟨"CRANE".data, 6, [], [], Status.playing⟩).word = none :=
  (target_hidden_while_playing ⟨"CRANE".data, 6, [], [], Status.playing⟩).1 rfl

/-- C6 counterexample: when both backing stores fail, `getStats` returns a
success result (`success = true`, no error field), so the caller cannot
tell that an error occurred. -/
theorem getStats_swallows_error :
    (getStats (Except.error "firestore offline")
        (Except.error "api unreachable")).success = true ∧
    (getStats (Except.error "firestore offline")
        (Except.error "api unreachable")).error = none := by
  exact ⟨rfl, rfl⟩

/-- C6 amended: when both backing stores fail, `getStats` swallows the
failure and returns a success-shaped result carrying the zeroed default
stats and no error field, indistinguishable from a genuine empty-stats
success. -/
theorem getStats_double_failure (e1 e2 : String) :
    getStats (Except.error e1) (Except.error e2)
      = ⟨true, defaultStats, none⟩ := rfl

/-- C7: for an error-free guess submission, the statistics update is
triggered iff the resulting status is `won` or `lost`; a submission that
leaves the status `playing` triggers none. -/
theorem stats_triggered_iff_terminal (d : GuessResponseData)
    (h : d.error = none) :
    statsRefreshTriggered d = true
      ↔ (d.game_status = Status.won ∨ d.game_status = Status.lost) := by
  cases hs : d.game_status <;> simp [statsRefreshTriggered, h, hs]

/-- C7 witness: a won submission triggers the refresh, a playing one does
not. -/
theorem stats_triggered_iff_terminal_witness :
    statsRefreshTriggered ⟨none, Status.won⟩ = true ∧
    statsRefreshTriggered ⟨none, Status.playing⟩ = false := by
  constructor
  · exact (stats_triggered_iff_terminal ⟨none, Status.won⟩ rfl).mpr (Or.inl rfl)
  · have h := stats_triggered_iff_terminal ⟨none, Status.playing⟩ rfl
    simp only [GuessResponseData.mk.injEq] at h
    rcases hb : statsRefreshTriggered ⟨none, Status.playing⟩ with _ | _
    · rfl
    · rcases h.mp hb with hc | hc <;> exact absurd hc (by simp)

/-- C10: the displayed win percentage is total — it equals
`round(100 * won / played)` whenever `played > 0` and `0` when
`played = 0`; the guarded branch keeps the division-by-zero case from
being evaluated. -/
theorem winPercentage_total (played won : Nat) :
    winPercentage played won = winPercentageSpec played won := by
  rcases Nat.eq_zero_or_pos played with h | h
  · simp [winPercentage, winPercentageSpec, h]
  · have hne : played ≠ 0 := by omega
    rw [winPercentage, winPercentageSpec, if_pos h, if_neg hne]
    congr 1
    rw [div_mul_eq_mul_div, mul_comm]

theorem char_isUpper_toUpper (c : Char) (h : c.isAlpha = true) :
    (c.toUpper).isUpper = true := by
  have hval : ∀ (n : Nat), n.isValidChar → (Char.ofNat n).toNat = n := by
    intro n hn
    unfold Char.ofNat
    rw [dif_pos hn]
    rfl
  simp only [Char.isAlpha, Bool.or_eq_true, Char.isUpper, Char.isLower,
    Bool.and_eq_true, decide_eq_true_eq] at h
  have hup : ∀ (d : Char), (65 ≤ d.toNat ∧ d.toNat ≤ 90) → d.isUpper = true := by
    intro d hd
    simp only [Char.isUpper, Bool.and_eq_true, decide_eq_true_eq]
    constructor
    · show (65 : UInt32).toNat ≤ d.val.toNat
      exact hd.1
    · show d.val.toNat ≤ (90 : UInt32).toNat
      exact hd.2
  unfold Char.toUpper
  by_cases hl : c.toNat ≥ 97 ∧ c.toNat ≤ 122
  · rw [if_pos hl]
    have hvalid : (c.toNat - 32).isValidChar := by
      left
      omega
    apply hup
    rw [hval _ hvalid]
    omega
  · rw [if_neg hl]
    apply hup
    rcases h with h | h
    · have h1 : (65 : UInt32).toNat ≤ c.val.toNat := h.1
      have h2 : c.val.toNat ≤ (90 : UInt32).toNat := h.2
      exact ⟨h1, h2⟩
    · exfalso
      apply hl
      have h1 : (97 : UInt32).toNat ≤ c.val.toNat := h.1
      have h2 : c.val.toNat ≤ (122 : UInt32).toNat := h.2
      exact ⟨h1, h2⟩

theorem isLetterCell_ne_empty (s : String) (h : isLetterCell s = true) :
    (s == "") = false := by
  rw [beq_eq_false_iff_ne]
  intro he
  subst he
  exact absurd h (by decide)

theorem findEmptyIdx_pad (front : List String) (m : Nat)
    (hcells : ∀ s ∈ front, isLetterCell s = true) :
    findEmptyIdx (front ++ List.replicate m "") =
      if m = 0 then none else some front.length := by
  induction front with
  | nil =>
    cases m with
    | zero => simp [findEmptyIdx]
    | succ k => simp [List.replicate_succ, findEmptyIdx]
  | cons s front ih =>
    have hs : (s == "") = false :=
      isLetterCell_ne_empty s (hcells s (List.mem_cons_self s front))
    have ih' := ih (fun t ht => hcells t (List.mem_cons_of_mem _ ht))
    rw [List.cons_append]
    rw [show findEmptyIdx (s :: (front ++ List.replicate m ""))
      = if s == "" then some 0
        else (findEmptyIdx (front ++ List.replicate m "")).map (· + 1) from rfl]
    rw [hs, if_neg (by simp), ih']
    by_cases hm : m = 0 <;> simp [hm]

theorem bufCells_pad (front : List String) (m : Nat)
    (hcells : ∀ s ∈ front, isLetterCell s = true) :
    bufCells (front ++ List.replicate m "") = true := by
  induction front with
  | nil =>
    cases m with
    | zero => rfl
    | succ k => simp [List.replicate_succ, bufCells, List.all_replicate]
  | cons s front ih =>
    have hsc : isLetterCell s = true := hcells s (List.mem_cons_self s front)
    have hs : (s == "") = false := isLetterCell_ne_empty s hsc
    have ih' := ih (fun t ht => hcells t (List.mem_cons_of_mem _ ht))
    rw [List.cons_append]
    rw [show bufCells (s :: (front ++ List.replicate m ""))
      = if s == "" then (front ++ List.replicate m "").all (fun t => t == "")
        else isLetterCell s && bufCells (front ++ List.replicate m "") from rfl]
    rw [hs, if_neg (by simp), hsc, ih']
    rfl

theorem isBuffer_pad (wordLength : Nat) (front : List String)
    (hcells : ∀ s ∈ front, isLetterCell s = true)
    (hlen : front.length ≤ wordLength) :
    isBuffer wordLength (padBuffer wordLength front) = true := by
  have h1 : (front ++ List.replicate (wordLength - front.length) "").length
      = wordLength := by
    simp
    omega
  simp only [isBuffer, padBuffer]
  rw [h1]
  simp [bufCells_pad front _ hcells]

theorem set_last {α : Type} (l : List α) (x : α) (h : l ≠ []) :
    l.set (l.length - 1) x = l.dropLast ++ [x] := by
  have hlen : 0 < l.length := List.length_pos.mpr h
  rw [List.set_eq_take_cons_drop x (show l.length - 1 < l.length by omega)]
  rw [List.dropLast_eq_take]
  congr 1
  have he : l.length - 1 + 1 = l.length := by omega
  rw [he, List.drop_length]

theorem keypress_enter (wordLength : Nat) (buf : List String) :
    handleKeyPress wordLength buf "Enter" = buf := by
  simp [handleKeyPress]

theorem keypress_backspace (wordLength : Nat) (front : List String)
    (hcells : ∀ s ∈ front, isLetterCell s = true)
    (hlen : front.length ≤ wordLength) :
    handleKeyPress wordLength (padBuffer wordLength front) "Backspace"
      = padBuffer wordLength front.dropLast := by
  have hEB : ("Backspace" : String) ≠ "Enter" := by decide
  rw [handleKeyPress, if_neg hEB, if_pos rfl, padBuffer,
    findEmptyIdx_pad front (wordLength - front.length) hcells]
  by_cases hm0 : wordLength - front.length = 0
  · rw [if_pos hm0, hm0, List.replicate_zero, List.append_nil]
    by_cases hL0 : wordLength = 0
    · have hf : front = [] := by
        cases front with
        | nil => rfl
        | cons a l =>
          exfalso
          rw [hL0] at hlen
          simp at hlen
      subst hf
      subst hL0
      rfl
    · have hfl : front.length = wordLength := by omega
      have hfne : front ≠ [] := by
        intro he
        rw [he] at hfl
        simp at hfl
        omega
      have hle : (0 : Int) ≤ (wordLength : Int) - 1 := by omega
      simp only [show ((-1 : Int) = -1) = True from by simp, if_true, if_pos hle]
      have htn : ((wordLength : Int) - 1).toNat = front.length - 1 := by omega
      rw [htn, set_last front "" hfne, padBuffer]
      have hdl : front.dropLast.length = wordLength - 1 := by
        rw [List.length_dropLast]
        omega
      rw [hdl]
      have hrep : wordLength - (wordLength - 1) = 1 := by omega
      rw [hrep]
      rfl
  · rw [if_neg hm0]
    by_cases hf : front = []
    · subst hf
      have hng : ¬ ((0 : Int) ≤ (0 : Int) - 1) := by omega
      simp only [List.length_nil, Nat.cast_zero,
        show ((0 : Int) = -1) = False from by simp, if_false, if_neg hng]
      rw [padBuffer]
      simp
    · have hk1 : 1 ≤ front.length := by
        cases front with
        | nil => exact absurd rfl hf
        | cons a l => simp
      have hidx : ¬ ((front.length : Int) = -1) := by omega
      have hpos : (0 : Int) ≤ (front.length : Int) - 1 := by omega
      simp only [if_neg hidx, if_pos hpos]
      have htn : ((front.length : Int) - 1).toNat = front.length - 1 := by omega
      rw [htn, List.set_append,
        if_pos (show front.length - 1 < front.length by omega),
        set_last front "" hf, padBuffer]
      have hdl : front.dropLast.length = front.length - 1 := List.length_dropLast front
      rw [hdl, List.append_assoc]
      congr 1
      have hrep : wordLength - (front.length - 1)
          = (wordLength - front.length) + 1 := by omega
      rw [hrep, List.replicate_succ]
      rfl

theorem keypress_letter (wordLength : Nat) (front : List String) (key : String)
    (c : Char) (hkey : key.data = [c]) (hc : c.isAlpha = true)
    (hcells : ∀ s ∈ front, isLetterCell s = true)
    (hlen : front.length ≤ wordLength) :
    handleKeyPress wordLength (padBuffer wordLength front) key
      = if front.length < wordLength
        then padBuffer wordLength (front ++ [String.mk [c.toUpper]])
        else padBuffer wordLength front := by
  have hE : key ≠ "Enter" := by
    intro he
    rw [he] at hkey
    have hl := congrArg List.length hkey
    simp at hl
  have hB : key ≠ "Backspace" := by
    intro he
    rw [he] at hkey
    have hl := congrArg List.length hkey
    simp at hl
  rw [handleKeyPress, if_neg hE, if_neg hB, hkey]
  show (if c.isAlpha then
          match findEmptyIdx (padBuffer wordLength front) with
          | none => padBuffer wordLength front
          | some i =>
              (padBuffer wordLength front).set i (String.mk [c.toUpper])
        else padBuffer wordLength front) = _
  rw [if_pos hc, padBuffer,
    findEmptyIdx_pad front (wordLength - front.length) hcells]
  by_cases hm0 : wordLength - front.length = 0
  · rw [if_pos hm0]
    have hge : ¬ (front.length < wordLength) := by omega
    rw [if_neg hge]
  · rw [if_neg hm0]
    have hlt : front.length < wordLength := by omega
    rw [if_pos hlt]
    show (front ++ List.replicate (wordLength - front.length) "").set
        front.length (String.mk [c.toUpper]) = _
    rw [List.set_append, if_neg (by omega)]
    have hsub : front.length - front.length = 0 := by omega
    rw [hsub]
    have hm : wordLength - front.length
        = (wordLength - front.length - 1) + 1 := by omega
    rw [hm, List.replicate_succ, List.set_cons_zero, padBuffer]
    have hk : wordLength - (front ++ [String.mk [c.toUpper]]).length
        = wordLength - front.length - 1 := by
      rw [List.length_append]
      simp
      omega
    rw [hk, List.append_assoc]
    rfl

theorem keypress_other (wordLength : Nat) (buf : List String) (key : String)
    (hE : key ≠ "Enter") (hB : key ≠ "Backspace")
    (hna : ∀ c, key.data = [c] → c.isAlpha = false) :
    handleKeyPress wordLength buf key = buf := by
  rw [handleKeyPress, if_neg hE, if_neg hB]
  rcases hd : key.data with _ | ⟨c, cs⟩
  · rfl
  · cases cs with
    | nil =>
      have hf : c.isAlpha = false := hna c hd
      show (if c.isAlpha then _ else buf) = buf
      simp [hf]
    | cons c2 cs2 => rfl

/-- C8: starting from a well-formed buffer (a front of single uppercase
letter cells padded with empty cells to the word length), every key event
preserves the invariant — length exactly `wordLength` with a contiguous
letter-cell front — and behaves as the claim says: `Enter` leaves the
buffer, `Backspace` clears the rightmost filled cell (a no-op on an empty
buffer), a single alphabetic key fills the leftmost empty cell with its
uppercase form (a no-op on a full buffer), and any other key changes
nothing. -/
theorem handleKeyPress_buffer (wordLength : Nat) (front : List String)
    (key : String) (hcells : ∀ s ∈ front, isLetterCell s = true)
    (hlen : front.length ≤ wordLength) :
    isBuffer wordLength
        (handleKeyPress wordLength (padBuffer wordLength front) key) = true ∧
    (key = "Enter" →
      handleKeyPress wordLength (padBuffer wordLength front) key
        = padBuffer wordLength front) ∧
    (key = "Backspace" →
      handleKeyPress wordLength (padBuffer wordLength front) key
        = padBuffer wordLength front.dropLast) ∧
    (∀ c, key.data = [c] → c.isAlpha = true →
      handleKeyPress wordLength (padBuffer wordLength front) key
        = if front.length < wordLength
          then padBuffer wordLength (front ++ [String.mk [c.toUpper]])
          else padBuffer wordLength front) ∧
    (key ≠ "Enter" → key ≠ "Backspace" →
      (∀ c, key.data = [c] → c.isAlpha = false) →
      handleKeyPress wordLength (padBuffer wordLength front) key
        = padBuffer wordLength front) := by
  have hdrop_cells : ∀ s ∈ front.dropLast, isLetterCell s = true :=
    fun s hs => hcells s (List.dropLast_subset front hs)
  have hdrop_len : front.dropLast.length ≤ wordLength := by
    rw [List.length_dropLast]
    omega
  refine ⟨?_, ?_, ?_, ?_, ?_⟩
  · by_cases hE : key = "Enter"
    · subst hE
      rw [keypress_enter]
      exact isBuffer_pad wordLength front hcells hlen
    by_cases hB : key = "Backspace"
    · subst hB
      rw [keypress_backspace wordLength front hcells hlen]
      exact isBuffer_pad wordLength front.dropLast hdrop_cells hdrop_len
    rcases hd : key.data with _ | ⟨c, cs⟩
    · have hna : ∀ c, key.data = [c] → c.isAlpha = false := by
        intro c h
        rw [hd] at h
        exact absurd h (by simp)
      rw [keypress_other wordLength _ key hE hB hna]
      exact isBuffer_pad wordLength front hcells hlen
    cases cs with
    | nil =>
      by_cases ha : c.isAlpha = true
      · rw [keypress_letter wordLength front key c hd ha hcells hlen]
        by_cases hlt : front.length < wordLength
        · rw [if_pos hlt]
          apply isBuffer_pad
          · intro s hs
            rcases List.mem_append.mp hs with h | h
            · exact hcells s h
            · have hsc : s = String.mk [c.toUpper] := by simpa using h
              subst hsc
              have hup := char_isUpper_toUpper c ha
              simp [isLetterCell, hup]
          · rw [List.length_append]
            simp only [List.length_singleton]
            omega
        · rw [if_neg hlt]
          exact isBuffer_pad wordLength front hcells hlen
      · have hna : ∀ c2, key.data = [c2] → c2.isAlpha = false := by
          intro c2 h2
          rw [hd] at h2
          have hcc : c = c2 := by simpa using h2
          subst hcc
          rcases hb : c.isAlpha with _ | _
          · rfl
          · exact absurd hb ha
        rw [keypress_other wordLength _ key hE hB hna]
        exact isBuffer_pad wordLength front hcells hlen
    | cons c2 cs2 =>
      have hna : ∀ c3, key.data = [c3] → c3.isAlpha = false := by
        intro c3 h3
        rw [hd] at h3
        simp at h3
      rw [keypress_other wordLength _ key hE hB hna]
      exact isBuffer_pad wordLength front hcells hlen
  · intro hE
    subst hE
    exact keypress_enter wordLength _
  · intro hB
    subst hB
    exact keypress_backspace wordLength front hcells hlen
  · intro c hd hc
    exact keypress_letter wordLength front key c hd hc hcells hlen
  · intro hE hB hna
    exact keypress_other wordLength _ key hE hB hna

/-- C8 witness: with word length 5 and one filled cell `"A"`, pressing `b`
fills the second cell with `"B"` (invariant intact), and Backspace on the
same buffer clears the `"A"`. -/
theorem handleKeyPress_buffer_witness :
    handleKeyPress 5 (padBuffer 5 ["A"]) "b" = padBuffer 5 ["A", "B"] ∧
    isBuffer 5 (handleKeyPress 5 (padBuffer 5 ["A"]) "b") = true ∧
    handleKeyPress 5 (padBuffer 5 ["A"]) "Backspace" = padBuffer 5 [] := by
  refine ⟨?_, ?_, ?_⟩
  · exact ((handleKeyPress_buffer 5 ["A"] "b" (by decide)
      (by decide)).2.2.2.1 'b' rfl (by decide)).trans (by decide)
  · exact (handleKeyPress_buffer 5 ["A"] "b" (by decide) (by decide)).1
  · exact ((handleKeyPress_buffer 5 ["A"] "Backspace" (by decide)
      (by decide)).2.2.1 rfl).trans (by decide)
